import Mathlib

/-!
Verification development for the `wecon-mongoose-field-shield` field-level
access-control engine.  The TypeScript sources are embedded shallowly:
JavaScript `Map`s and plain objects become ordered association lists over
`String` keys, JavaScript `Set`s become ordered duplicate-free lists, and
functions that may throw or return promises are modelled with an explicit
outcome type.  Each definition mirrors one source function and keeps its
name where possible.
-/

namespace FieldShield

/-- Characterwise test that the first list begins with the second
(model of JavaScript `String.startsWith` on the underlying characters). -/
def listStarts : List Char → List Char → Bool
  | _, [] => true
  | [], _ :: _ => false
  | a :: as, b :: bs => a == b && listStarts as bs

/-- Model of JavaScript `s.startsWith(p)`. -/
def jsStartsWith (s p : String) : Bool := listStarts s.data p.data

/-- Lookup in a JavaScript `Map` / plain object modelled as an ordered
association list (first matching key wins; keys are unique by construction). -/
def mapGet (m : List (String × α)) (k : String) : Option α :=
  match m with
  | [] => none
  | (k0, v) :: rest => if k0 == k then some v else mapGet rest k

/-- Model of JavaScript `map.has(k)` / `k in obj`. -/
def mapHas (m : List (String × α)) (k : String) : Bool := (mapGet m k).isSome

/-- Model of JavaScript `map.set(k, v)` / `obj[k] = v`: overwrite in place
when the key exists, otherwise append. -/
def mapSet (m : List (String × α)) (k : String) (v : α) : List (String × α) :=
  if mapHas m k then m.map (fun kv => if kv.1 == k then (k, v) else kv)
  else m ++ [(k, v)]

/-- Model of JavaScript `set.add(x)` on an insertion-ordered `Set`. -/
def setAdd (l : List String) (x : String) : List String :=
  if l.contains x then l else l ++ [x]

/-- Add every element of `rs` to the ordered set `acc`
(model of the `for (const role of config.roles) childRoles.add(role)` loop). -/
def dedupAppend (acc rs : List String) : List String := rs.foldl setAdd acc

/-- Stable insertion of `x` into `l`: `x` goes after every element `y`
with `le y x`.  Together with `stableSort` this computes the unique stable
ascending order that JavaScript `Array.prototype.sort` produces for a
consistent comparator. -/
def stableInsert (le : α → α → Bool) (x : α) : List α → List α
  | [] => [x]
  | y :: ys => if le y x then y :: stableInsert le x ys else x :: y :: ys

/-- Stable sort (model of JavaScript `Array.prototype.sort`, which is
required to be stable). -/
def stableSort (le : α → α → Bool) (l : List α) : List α :=
  l.foldl (fun acc x => stableInsert le x acc) []

/-- Model of `checkRoleAccess` from `src/registry.ts` (identical logic is
also defined in the filter engine and used as `checkRoleAccessSync`):
empty allowed list denies everyone, `*` and `public` allow, otherwise the
allowed list must intersect the caller's roles. -/
def checkRoleAccess (allowedRoles userRoles : List String) : Bool :=
  if allowedRoles.length == 0 then false
  else if allowedRoles.contains "*" then true
  else if allowedRoles.contains "public" then true
  else allowedRoles.any (fun role => userRoles.contains role)

/-- Model of `checkRoleAccessSync` from the document-transformation module:
same decision as `checkRoleAccess`, re-declared in the source. -/
def checkRoleAccessSync (allowedRoles userRoles : List String) : Bool :=
  if allowedRoles.length == 0 then false
  else if allowedRoles.contains "*" then true
  else if allowedRoles.contains "public" then true
  else allowedRoles.any (fun role => userRoles.contains role)

/-- Model of `PolicyRegistryImpl.checkRoleAccessFast`: the same checks with
the caller's roles held in a `Set` (membership is identical). -/
def checkRoleAccessFast (allowedRoles userRoleSet : List String) : Bool :=
  if allowedRoles.length == 0 then false
  else if allowedRoles.contains "*" then true
  else if allowedRoles.contains "public" then true
  else allowedRoles.any (fun role => userRoleSet.contains role)

/-- Outcome of calling a user-supplied JavaScript function: a plain return
value, a synchronous throw, or a returned promise that resolves or rejects. -/
inductive JsCall (α : Type) where
  | value (a : α)
  | thrown
  | promise (r : Except Unit α)
deriving Repr

/-- Result of `await`-ing a `JsCall`: synchronous throws and promise
rejections both surface as exceptions; plain values and resolutions both
surface as values. -/
def awaited : JsCall α → Except Unit α
  | .value a => .ok a
  | .thrown => .error ()
  | .promise r => r

/-- Model of the `ShieldContext` object passed to conditions and transforms. -/
structure ShieldContext (V : Type) where
  roles : List String
  userId : Option String
  document : List (String × V)
  field : String
  model : String

/-- Model of `ShieldConfig`: one field's access rule.  The `synthesized`
flag mirrors the `_synthesized` marker set by parent synthesis. -/
structure ShieldConfig (V : Type) where
  roles : List String
  condition : Option (ShieldContext V → JsCall Bool) := none
  transform : Option (V → ShieldContext V → JsCall V) := none
  synthesized : Bool := false

/-- Model of `ModelPolicy`: a JavaScript `Map` from field path to config. -/
def Policy (V : Type) := List (String × ShieldConfig V)

/-- Model of `FilterOptions` (roles plus optional user id). -/
structure FilterOptions where
  roles : List String
  userId : Option String := none

/-- Structured errors raised through the `ShieldError` factories in
`src/errors.ts`.  Every factory logs a formatted report and then throws. -/
inductive ShieldErr where
  | conditionFailed (model field : String)
  | missingShieldConfig (model field : String)
deriving Repr, DecidableEq

/-- Model of `FieldAccessResult` from the filter engine. -/
structure FieldAccessResult (V : Type) where
  accessible : Bool
  value : Option V

/-- Model of `checkFieldAccess` from the async filter engine
(`filter.ts`): no config denies, role failure denies, a condition exception
is routed through `ShieldError.conditionFailed` which throws (so the error
propagates), a falsy condition denies, and a transform exception is logged
and the original value kept. -/
def checkFieldAccess (field : String) (value : V)
    (document : List (String × V)) (modelName : String)
    (policy : Policy V) (options : FilterOptions) :
    Except ShieldErr (FieldAccessResult V) :=
  match mapGet policy field with
  | none => .ok ⟨false, none⟩
  | some config =>
    if !(checkRoleAccess config.roles options.roles) then .ok ⟨false, none⟩
    else
      let ctx : ShieldContext V :=
        ⟨options.roles, options.userId, document, field, modelName⟩
      let afterCond : Except ShieldErr Bool :=
        match config.condition with
        | none => .ok true
        | some cond =>
          match awaited (cond ctx) with
          | .error _ => .error (.conditionFailed modelName field)
          | .ok b => .ok b
      match afterCond with
      | .error e => .error e
      | .ok b =>
        if !b then .ok ⟨false, none⟩
        else
          let finalValue :=
            match config.transform with
            | none => value
            | some t =>
              match awaited (t value ctx) with
              | .error _ => value
              | .ok v => v
          .ok ⟨true, some finalValue⟩

/-- Model of `filterDocument` from the async filter engine: a missing
policy returns the document unchanged, otherwise every entry is checked
with `checkFieldAccess` and accessible entries are copied to the result.
An error from `checkFieldAccess` rejects the whole call. -/
def filterDocument (doc : List (String × V)) (modelName : String)
    (policyOpt : Option (Policy V)) (options : FilterOptions) :
    Except ShieldErr (List (String × V)) :=
  match policyOpt with
  | none => .ok doc
  | some policy =>
    doc.foldlM
      (fun result fv => do
        let allowed ← checkFieldAccess fv.1 fv.2 doc modelName policy options
        if allowed.accessible then
          match allowed.value with
          | some v => pure (mapSet result fv.1 v)
          | none => pure result
        else pure result)
      ([] : List (String × V))

/-- Model of the per-field body of `filterDocumentSync` from the
document-transformation module: `none` means the field is skipped, `some v`
means it is emitted with value `v`.  Conditions that throw or return a
promise are logged and skipped; transforms that throw or return a promise
keep the original value. -/
def syncProcessField (policy : Policy V) (modelName : String)
    (options : FilterOptions) (doc : List (String × V))
    (field : String) (value : V) : Option V :=
  match mapGet policy field with
  | none => none
  | some config =>
    if !(checkRoleAccessSync config.roles options.roles) then none
    else
      let ctx : ShieldContext V :=
        ⟨options.roles, options.userId, doc, field, modelName⟩
      let proceed : Bool :=
        match config.condition with
        | none => true
        | some cond =>
          match cond ctx with
          | .promise _ => false
          | .thrown => false
          | .value b => b
      if !proceed then none
      else
        let finalValue :=
          match config.transform with
          | none => value
          | some t =>
            match t value ctx with
            | .promise _ => value
            | .thrown => value
            | .value v => v
        some finalValue

/-- Model of `filterDocumentSync`: a missing policy returns the document
unchanged, otherwise each entry is processed with `syncProcessField` and
the kept entries are written to a fresh result object. -/
def filterDocumentSync (doc : List (String × V)) (modelName : String)
    (policyOpt : Option (Policy V)) (options : FilterOptions) :
    List (String × V) :=
  match policyOpt with
  | none => doc
  | some policy =>
    doc.foldl
      (fun result fv =>
        match syncProcessField policy modelName options doc fv.1 fv.2 with
        | none => result
        | some v => mapSet result fv.1 v)
      []

/-- First pass of `removeRedundantParentPaths`: walk the sorted paths,
skipping a path whose strict descendant is already in the accumulator
(with the list sorted shortest-first this guard never fires, but it is
kept to match the source). -/
def rppFirstPass : List String → List String → List String
  | [], res => res
  | p :: rest, res =>
    if res.any (fun existing => jsStartsWith existing (p ++ ".")) then
      rppFirstPass rest res
    else rppFirstPass rest (res ++ [p])

/-- Model of `removeRedundantParentPaths` from `src/registry.ts`: sort the
paths by length ascending (stable), run the first pass, then drop every
path that has a strict dot-descendant elsewhere in the list. -/
def removeRedundantParentPaths (paths : List String) : List String :=
  let sorted := stableSort (fun a b => a.length ≤ b.length) paths
  let result := rppFirstPass sorted []
  result.filter (fun path =>
    !(result.any (fun other => other != path && jsStartsWith other (path ++ "."))))

/-- Model of `CachedProjection` (the result shape shared by
`computeProjection` and `calculateAllowedFields`). -/
structure CachedProjection where
  selectFields : List String
  conditionFields : List String
deriving Repr, DecidableEq

/-- One iteration of the projection loop shared by `computeProjection` and
`calculateAllowedFields`: skip `__v`, add each role-accessible field to the
working set, and record condition-bearing fields. -/
def projStep (roleCheck : List String → List String → Bool)
    (roles : List String) (acc : List String × List String)
    (fc : String × ShieldConfig V) : List String × List String :=
  if fc.1 == "__v" then acc
  else if roleCheck fc.2.roles roles then
    (setAdd acc.1 fc.1,
     if fc.2.condition.isSome then setAdd acc.2 fc.1 else acc.2)
  else acc

/-- Shared body of the projection loop: seed the working set with `_id`,
fold `projStep` over the policy, then eliminate redundant parent paths. -/
def projectionLoop (roleCheck : List String → List String → Bool)
    (policy : Policy V) (roles : List String) : CachedProjection :=
  let folded := policy.foldl (projStep roleCheck roles) (["_id"], [])
  ⟨removeRedundantParentPaths folded.1, folded.2⟩

/-- Model of `PolicyRegistryImpl.computeProjection`: the projection loop
with the `Set`-based role check. -/
def computeProjection (policy : Policy V) (roles : List String) :
    CachedProjection :=
  projectionLoop checkRoleAccessFast policy roles

/-- Model of the standalone `calculateAllowedFields` from
`src/registry.ts`: a missing policy yields the minimal projection
containing only `_id`; otherwise the projection loop runs with
`checkRoleAccess`. -/
def calculateAllowedFields (policies : List (String × Policy V))
    (modelName : String) (roles : List String) : CachedProjection :=
  match mapGet policies modelName with
  | none => ⟨["_id"], []⟩
  | some policy => projectionLoop checkRoleAccess policy roles

/-- Model of `PrecomputedAccess` for a registered model. -/
structure PrecomputedAccess where
  singleRoleProjections : List (String × CachedProjection)
  multiRoleCache : List (String × CachedProjection)
  allRoles : List String

/-- Model of the registry's private state: the `policies` map and the
`precomputed` map. -/
structure RegistryState (V : Type) where
  policies : List (String × Policy V)
  precomputed : List (String × PrecomputedAccess)

/-- Model of `PolicyRegistryImpl.getProjection`: `null` when the model was
never precomputed, a single-role cache hit, a multi-role cache hit, or a
fresh computation memoized under the sorted comma-joined role key.  The
possibly-updated registry state is returned alongside the result. -/
def getProjection (st : RegistryState V) (modelName : String)
    (roles : List String) : Option CachedProjection × RegistryState V :=
  match mapGet st.precomputed modelName with
  | none => (none, st)
  | some pre =>
    let singleHit : Option CachedProjection :=
      if roles.length == 1 then mapGet pre.singleRoleProjections (roles.headD "")
      else none
    match singleHit with
    | some c => (some c, st)
    | none =>
      let cacheKey :=
        String.intercalate "," (stableSort (fun a b => a ≤ b) roles)
      match mapGet pre.multiRoleCache cacheKey with
      | some c => (some c, st)
      | none =>
        match mapGet st.policies modelName with
        | none => (none, st)
        | some policy =>
          let proj := computeProjection policy roles
          (some proj,
           ⟨st.policies,
            mapSet st.precomputed modelName
              ⟨pre.singleRoleProjections,
               mapSet pre.multiRoleCache cacheKey proj,
               pre.allRoles⟩⟩)

/-- Split a string at every dot (model of JavaScript `path.split('.')`),
working over the character list. -/
def splitDotsAux : List Char → List Char → List (List Char)
  | [], cur => [cur.reverse]
  | c :: rest, cur =>
    if c == '.' then cur.reverse :: splitDotsAux rest []
    else splitDotsAux rest (c :: cur)

/-- Model of `path.split('.')`. -/
def splitDots (s : String) : List String :=
  (splitDotsAux s.data []).map (fun l => String.mk l)

/-- All strict ancestor paths of a dotted path, shortest first (model of
the `parts.slice(0, i).join('.')` loop for `i = 1 .. parts.length - 1`). -/
def ancestorPaths (path : String) : List String :=
  let parts := splitDots path
  ((List.range parts.length).drop 1).map
    (fun i => String.intercalate "." (parts.take i))

/-- Model of `synthesizeParentPolicies` from `src/registry.ts`: collect all
ancestor path candidates of policy keys, sort them deepest first, and for
each candidate without an explicit rule whose subtree contains at least one
policy entry, append a synthesized rule carrying the union of all strict
descendants' roles.  Later (shallower) candidates see earlier synthesized
entries, matching the in-place mutation of the source `Map`. -/
def synthesizeParentPolicies (policy : Policy V) : Policy V :=
  let parentCandidates :=
    (policy.map Prod.fst).foldl
      (fun acc path => dedupAppend acc (ancestorPaths path)) []
  if parentCandidates.length == 0 then policy
  else
    let sorted := stableSort
      (fun a b => (splitDots b).length ≤ (splitDots a).length)
      parentCandidates
    sorted.foldl
      (fun pol pfx =>
        if mapHas pol pfx then pol
        else
          let childRoles := pol.foldl
            (fun acc pc =>
              if jsStartsWith pc.1 (pfx ++ ".") then dedupAppend acc pc.2.roles
              else acc) []
          let hasAnyChildren :=
            pol.any (fun pc => jsStartsWith pc.1 (pfx ++ "."))
          if hasAnyChildren then
            mapSet pol pfx ⟨childRoles, none, none, true⟩
          else pol)
      policy

/-- Values appearing in a MongoDB projection stage, as far as the merge
logic inspects them: numbers, booleans, strings, nested objects, or null.
JavaScript `typeof null` is the object tag, which the model keeps faithful in
`detectProjectionMode`. -/
inductive PVal where
  | num (n : Int)
  | bool (b : Bool)
  | str (s : String)
  | obj (fields : List (String × PVal))
  | null

/-- Projection mode detected for a caller-supplied `$project` stage. -/
inductive ProjMode where
  | inclusion
  | exclusion
deriving Repr, DecidableEq

/-- Model of `detectProjectionMode` from `src/pipeline-utils.ts`: skip
`_id`; `0` or `false` means exclusion; `1`, `true`, objects (including
`null`, whose `typeof` is the object tag), and strings mean inclusion; any
other number is skipped; the default is inclusion. -/
def detectProjectionMode : List (String × PVal) → ProjMode
  | [] => .inclusion
  | (field, value) :: rest =>
    if field == "_id" then detectProjectionMode rest
    else
      match value with
      | .num n =>
        if n == 0 then .exclusion
        else if n == 1 then .inclusion
        else detectProjectionMode rest
      | .bool b => if b then .inclusion else .exclusion
      | .str _ => .inclusion
      | .obj _ => .inclusion
      | .null => .inclusion

/-- Model of `isComputedField`: a string starting with `$` is a field
reference; a non-null object with a key starting with `$` is an
aggregation expression. -/
def isComputedField : PVal → Bool
  | .str s => jsStartsWith s "$"
  | .obj fields => fields.any (fun kv => jsStartsWith kv.1 "$")
  | _ => false

/-- Model of `value === 0` on a projection value. -/
def pvalIsZero : PVal → Bool
  | .num n => n == 0
  | _ => false

/-- Model of `mergeProjections` from `src/pipeline-utils.ts`.  In exclusion
mode the merge starts from the allowed fields marked `1` and re-applies
only a caller `_id: 0`.  In inclusion mode caller entries are kept when
they are `_id`, in the allowed set, or computed expressions (with a logged
warning); all remaining allowed fields are then force-included. -/
def mergeProjections (userProjection : List (String × PVal))
    (allowedFields : List String) : List (String × PVal) :=
  match detectProjectionMode userProjection with
  | .exclusion =>
    let m := allowedFields.foldl (fun m f => mapSet m f (.num 1)) []
    userProjection.foldl
      (fun m kv =>
        if kv.1 == "_id" && pvalIsZero kv.2 then mapSet m "_id" (.num 0)
        else m)
      m
  | .inclusion =>
    let m := userProjection.foldl
      (fun m kv =>
        if kv.1 == "_id" then mapSet m "_id" kv.2
        else if allowedFields.contains kv.1 then mapSet m kv.1 kv.2
        else if isComputedField kv.2 then mapSet m kv.1 kv.2
        else m)
      []
    allowedFields.foldl
      (fun m f => if mapHas m f then m else mapSet m f (.num 1)) m

/-- Outcome of registering one model's schema. -/
inductive RegisterOutcome where
  | skipped
  | registered
deriving Repr, DecidableEq

/-- Model of `registerModelFromSchema` from `src/install.ts`, after schema
parsing: an empty policy is skipped before any validation; otherwise, in
strict mode, schema fields other than `_id`, `__v`, and underscore-named
internals must have a rule, and the first missing one is raised through
`ShieldError.missingShieldConfig` (which throws). -/
def registerModelFromSchema (modelName : String) (policy : Policy V)
    (schemaFields : List String) (strict : Bool) :
    Except ShieldErr RegisterOutcome :=
  if policy.length == 0 then .ok .skipped
  else
    let missingFields := schemaFields.filter
      (fun field =>
        !(field == "_id") && !(field == "__v") &&
        !(jsStartsWith field "_") && !(mapHas policy field))
    if strict && !(missingFields.length == 0) then
      .error (.missingShieldConfig modelName (missingFields.headD ""))
    else .ok .registered

/-- Model of the guard in `fieldShieldPlugin` (`src/install.ts`): strict
completeness validation runs only when strict mode is on and the parsed
policy holds at least one rule. -/
def pluginRunsStrictValidation (strict : Bool) (policy : Policy V) : Bool :=
  strict && decide (0 < policy.length)

/-- Example policy with a single rule for `name` and none for `_id`. -/
def examplePolicyNoId : Policy Nat :=
  [("name", { roles := ["public"] })]

/-- Example document carrying a rule-less `_id` next to a ruled field. -/
def exampleDocWithId : List (String × Nat) :=
  [("_id", 5), ("name", 7)]

/-- Example policy whose only rule's condition always throws. -/
def examplePolicyThrowingCond : Policy Nat :=
  [("secret", { roles := ["public"], condition := some (fun _ => .thrown) })]

/-- Example policy whose only rule's transform always throws. -/
def examplePolicyThrowingTransform : Policy Nat :=
  [("phone", { roles := ["public"], transform := some (fun _ _ => .thrown) })]

/-- Example policy keyed under a strict descendant of the identity field. -/
def examplePolicyIdChild : Policy Nat :=
  [("_id.x", { roles := ["public"] })]

/-- Empty registry state over `Nat` documents. -/
def emptyRegistry : RegistryState Nat := ⟨[], []⟩

/-- Filter options for an anonymous caller holding only the given roles. -/
def optsWith (roles : List String) : FilterOptions := ⟨roles, none⟩

end FieldShield

namespace FieldShield

theorem listStarts_length {s p : List Char} (h : listStarts s p = true) :
    p.length ≤ s.length := by
  induction s generalizing p with
  | nil =>
    cases p with
    | nil => simp
    | cons b bs => simp [listStarts] at h
  | cons a as ih =>
    cases p with
    | nil => simp
    | cons b bs =>
      simp only [listStarts, Bool.and_eq_true] at h
      simpa [List.length_cons] using Nat.succ_le_succ (ih h.2)

theorem jsStartsWith_dot_ne {p q : String}
    (h : jsStartsWith q (p ++ ".") = true) : q ≠ p := by
  intro hqp
  subst hqp
  have hlen := listStarts_length h
  have : (q ++ ".").data = q.data ++ ['.'] := by
    simp [String.data_append]
  rw [this] at hlen
  simp at hlen

theorem mem_setAdd {l : List String} {x y : String} :
    x ∈ setAdd l y ↔ x = y ∨ x ∈ l := by
  unfold setAdd
  split
  next h =>
    have hy : y ∈ l := List.elem_iff.mp h
    constructor
    · exact fun hx => Or.inr hx
    · rintro (rfl | hx)
      · exact hy
      · exact hx
  next h =>
    simp only [List.mem_append, List.mem_singleton]
    tauto

theorem mem_setAdd_of_mem {l : List String} {x y : String} (h : x ∈ l) :
    x ∈ setAdd l y := mem_setAdd.mpr (Or.inr h)

theorem mem_dedupAppend {acc rs : List String} {x : String} :
    x ∈ dedupAppend acc rs ↔ x ∈ acc ∨ x ∈ rs := by
  unfold dedupAppend
  induction rs generalizing acc with
  | nil => simp
  | cons r rest ih =>
    simp only [List.foldl_cons, ih, mem_setAdd]
    simp only [List.mem_cons]
    tauto

theorem mem_stableInsert {le : α → α → Bool} {l : List α} {x y : α} :
    x ∈ stableInsert le y l ↔ x = y ∨ x ∈ l := by
  induction l with
  | nil => simp [stableInsert]
  | cons z zs ih =>
    unfold stableInsert
    cases h : le z y with
    | true =>
      simp only [if_true, List.mem_cons, ih]
      tauto
    | false =>
      simp only [Bool.false_eq_true, if_false, List.mem_cons]

theorem mem_stableSort {le : α → α → Bool} {l : List α} {x : α} :
    x ∈ stableSort le l ↔ x ∈ l := by
  unfold stableSort
  suffices h : ∀ (acc : List α), x ∈ l.foldl (fun acc x => stableInsert le x acc) acc ↔ x ∈ acc ∨ x ∈ l by
    simpa using h []
  induction l with
  | nil => intro acc; simp
  | cons z zs ih =>
    intro acc
    simp only [List.foldl_cons, ih, mem_stableInsert, List.mem_cons]
    tauto

theorem mem_rppFirstPass_of_mem_res {l res : List String} {x : String}
    (h : x ∈ res) : x ∈ rppFirstPass l res := by
  induction l generalizing res with
  | nil => simpa [rppFirstPass] using h
  | cons p rest ih =>
    unfold rppFirstPass
    split
    · exact ih h
    · exact ih (List.mem_append_left _ h)

theorem mem_of_mem_rppFirstPass {l res : List String} {y : String}
    (h : y ∈ rppFirstPass l res) : y ∈ l ∨ y ∈ res := by
  induction l generalizing res with
  | nil =>
    simp only [rppFirstPass] at h
    exact Or.inr h
  | cons p rest ih =>
    unfold rppFirstPass at h
    split at h
    · rcases ih h with h1 | h2
      · exact Or.inl (List.mem_cons_of_mem _ h1)
      · exact Or.inr h2
    · rcases ih h with h1 | h2
      · exact Or.inl (List.mem_cons_of_mem _ h1)
      · rcases List.mem_append.mp h2 with h3 | h4
        · exact Or.inr h3
        · simp only [List.mem_singleton] at h4
          exact Or.inl (h4 ▸ List.mem_cons_self _ _)

theorem mem_rppFirstPass {l res : List String} {x : String} (hx : x ∈ l)
    (hno : ∀ q, q ∈ res ∨ q ∈ l → jsStartsWith q (x ++ ".") = false) :
    x ∈ rppFirstPass l res := by
  induction l generalizing res with
  | nil => cases hx
  | cons p rest ih =>
    unfold rppFirstPass
    rcases List.mem_cons.mp hx with rfl | hx'
    · have hguard : (res.any fun existing => jsStartsWith existing (x ++ ".")) = false := by
        rw [List.any_eq_false]
        intro q hq
        simp [hno q (Or.inl hq)]
      rw [hguard]
      simp only [Bool.false_eq_true, if_false]
      exact mem_rppFirstPass_of_mem_res
        (List.mem_append_right _ (List.mem_singleton.mpr rfl))
    · split
      · exact ih hx' (fun q hq => hno q (by
          rcases hq with hq | hq
          · exact Or.inl hq
          · exact Or.inr (List.mem_cons_of_mem _ hq)))
      · refine ih hx' (fun q hq => hno q ?_)
        rcases hq with hq | hq
        · rcases List.mem_append.mp hq with h1 | h2
          · exact Or.inl h1
          · simp only [List.mem_singleton] at h2
            exact Or.inr (h2 ▸ List.mem_cons_self _ _)
        · exact Or.inr (List.mem_cons_of_mem _ hq)

/-- Membership retention for `removeRedundantParentPaths`: an input path
with no strict dot-descendant anywhere in the input survives elimination. -/
theorem mem_removeRedundantParentPaths {paths : List String} {x : String}
    (hx : x ∈ paths)
    (hno : ∀ q ∈ paths, jsStartsWith q (x ++ ".") = false) :
    x ∈ removeRedundantParentPaths paths := by
  unfold removeRedundantParentPaths
  have hsorted : x ∈ stableSort (fun a b => a.length ≤ b.length) paths :=
    mem_stableSort.mpr hx
  have hres : x ∈ rppFirstPass (stableSort (fun a b => a.length ≤ b.length) paths) [] := by
    refine mem_rppFirstPass hsorted (fun q hq => ?_)
    rcases hq with hq | hq
    · cases hq
    · exact hno q (mem_stableSort.mp hq)
  refine List.mem_filter.mpr ⟨hres, ?_⟩
  rw [Bool.not_eq_true', List.any_eq_false]
  intro other hother
  rcases mem_of_mem_rppFirstPass hother with h1 | h2
  · have := hno other (mem_stableSort.mp h1)
    simp [this]
  · cases h2

/-- Soundness of elimination: every output path comes from the input. -/
theorem removeRedundantParentPaths_subset {paths : List String} {x : String}
    (hx : x ∈ removeRedundantParentPaths paths) : x ∈ paths := by
  unfold removeRedundantParentPaths at hx
  have h1 := (List.mem_filter.mp hx).1
  rcases mem_of_mem_rppFirstPass h1 with h2 | h2
  · exact mem_stableSort.mp h2
  · cases h2

theorem mem_fst_foldl_projStep {rc : List String → List String → Bool}
    {roles : List String} {policy : Policy V}
    {acc : List String × List String} {x : String} (h : x ∈ acc.1) :
    x ∈ (policy.foldl (projStep rc roles) acc).1 := by
  induction policy generalizing acc with
  | nil => simpa using h
  | cons fc rest ih =>
    simp only [List.foldl_cons]
    refine ih ?_
    unfold projStep
    split
    · exact h
    · split
      · exact mem_setAdd_of_mem h
      · exact h

theorem fst_foldl_projStep_subset {rc : List String → List String → Bool}
    {roles : List String} {policy : Policy V}
    {acc : List String × List String} {x : String}
    (h : x ∈ (policy.foldl (projStep rc roles) acc).1) :
    x ∈ acc.1 ∨ x ∈ policy.map Prod.fst := by
  induction policy generalizing acc with
  | nil =>
    simp only [List.foldl_nil] at h
    exact Or.inl h
  | cons fc rest ih =>
    simp only [List.foldl_cons] at h
    rcases ih h with h1 | h1
    · unfold projStep at h1
      split at h1
      · exact Or.inl h1
      · split at h1
        · rcases mem_setAdd.mp h1 with rfl | h2
          · exact Or.inr (by simp)
          · exact Or.inl h2
        · exact Or.inl h1
    · exact Or.inr (List.mem_cons_of_mem _ h1)

theorem mem_keys_mapSet {m : List (String × α)} {k f : String} {v : α}
    (h : f ∈ (mapSet m k v).map Prod.fst) :
    f = k ∨ f ∈ m.map Prod.fst := by
  unfold mapSet at h
  split at h
  · simp only [List.map_map, List.mem_map] at h
    rcases h with ⟨kv, hkv, heq⟩
    by_cases hk : kv.1 == k
    · simp only [Function.comp, hk, if_true] at heq
      exact Or.inl heq.symm
    · simp only [Function.comp, hk, Bool.false_eq_true, if_false] at heq
      exact Or.inr (heq ▸ List.mem_map.mpr ⟨kv, hkv, rfl⟩)
  · simp only [List.map_append, List.mem_append, List.map_cons,
      List.map_nil, List.mem_singleton] at h
    tauto

theorem checkRoleAccessSync_eq : @checkRoleAccessSync = @checkRoleAccess := rfl

theorem checkRoleAccessFast_eq : @checkRoleAccessFast = @checkRoleAccess := rfl

/-- C6: role matching denies every caller when the rule's role list is
empty (including a caller holding `admin`), and grants access whenever the
rule's role list contains `public`, even to a caller with no roles at all.
Stated for both `checkRoleAccess` and `checkRoleAccessFast`. -/
theorem C6_role_matching :
    (∀ userRoles : List String, checkRoleAccess [] userRoles = false)
  ∧ (∀ allowedRoles userRoles : List String, "public" ∈ allowedRoles →
      checkRoleAccess allowedRoles userRoles = true)
  ∧ (∀ userRoleSet : List String, checkRoleAccessFast [] userRoleSet = false)
  ∧ (∀ allowedRoles userRoleSet : List String, "public" ∈ allowedRoles →
      checkRoleAccessFast allowedRoles userRoleSet = true) := by
  have hpub : ∀ allowedRoles userRoles : List String, "public" ∈ allowedRoles →
      checkRoleAccess allowedRoles userRoles = true := by
    intro allowed userRoles hmem
    unfold checkRoleAccess
    split
    next h =>
      cases allowed with
      | nil => cases hmem
      | cons a as => simp at h
    next =>
      split
      next => rfl
      next =>
        split
        next => rfl
        next h => exact absurd (List.elem_iff.mpr hmem) h
  refine ⟨fun _ => rfl, hpub, fun _ => rfl, ?_⟩
  rw [checkRoleAccessFast_eq]
  exact hpub

/-- C6 witness: the empty role list denies a caller holding `admin`, and a
`public` rule accepts a caller with no roles, for both implementations. -/
theorem C6_role_matching_witness :
    checkRoleAccess [] ["admin"] = false ∧
    checkRoleAccess ["public"] [] = true ∧
    checkRoleAccessFast [] ["admin"] = false ∧
    checkRoleAccessFast ["public"] [] = true :=
  ⟨C6_role_matching.1 ["admin"],
   C6_role_matching.2.1 ["public"] [] (by decide),
   C6_role_matching.2.2.1 ["admin"],
   C6_role_matching.2.2.2 ["public"] [] (by decide)⟩

/-- C5: no element of a computed `selectFields` list is a strict
dot-ancestor of another element: for any input paths and any two members
of the eliminated list, the second never starts with the first plus a dot. -/
theorem C5_no_ancestor_descendant_collision
    (paths : List String) (p q : String)
    (hp : p ∈ removeRedundantParentPaths paths)
    (hq : q ∈ removeRedundantParentPaths paths) :
    jsStartsWith q (p ++ ".") = false := by
  by_contra hcon
  rw [Bool.not_eq_false] at hcon
  have hne : q ≠ p := jsStartsWith_dot_ne hcon
  unfold removeRedundantParentPaths at hp hq
  have hqres := (List.mem_filter.mp hq).1
  have hpred := (List.mem_filter.mp hp).2
  rw [Bool.not_eq_true', List.any_eq_false] at hpred
  refine hpred q hqres ?_
  rw [Bool.and_eq_true]
  exact ⟨bne_iff_ne.mpr hne, hcon⟩

/-- C5 witness: on the concrete input `["a", "a.b"]` the eliminated list
keeps `a.b`, and the theorem applies to that member against itself. -/
theorem C5_no_ancestor_descendant_collision_witness :
    "a.b" ∈ removeRedundantParentPaths ["a", "a.b"] ∧
    jsStartsWith "a.b" ("a.b" ++ ".") = false :=
  ⟨by decide,
   C5_no_ancestor_descendant_collision ["a", "a.b"] "a.b" "a.b"
     (by decide) (by decide)⟩

/-- C4 counterexample: the claim that `computeProjection` always keeps the
identity field fails for a policy keyed under a strict descendant of
`_id`: the redundant-ancestor elimination then removes `_id` itself. -/
theorem C4_counterexample :
    "_id" ∉ (computeProjection examplePolicyIdChild ["public"]).selectFields ∧
    (computeProjection examplePolicyIdChild ["public"]).selectFields = ["_id.x"] := by
  constructor
  · decide
  · decide

/-- C4 amended: for every policy none of whose keys is a strict dot
descendant of `_id`, the `selectFields` produced by `computeProjection`
contain the identity field. -/
theorem C4_selectFields_contain_id {V : Type} (policy : Policy V)
    (roles : List String)
    (hno : ∀ k ∈ policy.map Prod.fst, jsStartsWith k "_id." = false) :
    "_id" ∈ (computeProjection policy roles).selectFields := by
  unfold computeProjection projectionLoop
  refine mem_removeRedundantParentPaths (mem_fst_foldl_projStep (by simp)) ?_
  intro q hq
  rcases fst_foldl_projStep_subset hq with h1 | h1
  · simp only [List.mem_singleton] at h1
    subst h1
    decide
  · have hq0 := hno q h1
    have heq : ("_id" ++ "." : String) = "_id." := rfl
    rw [heq]
    exact hq0

/-- C4 amended witness: a flat policy with the single key `name` keeps
`_id` in the projection for role `public`. -/
theorem C4_selectFields_contain_id_witness :
    (∀ k ∈ examplePolicyNoId.map Prod.fst, jsStartsWith k "_id." = false) ∧
    "_id" ∈ (computeProjection examplePolicyNoId ["public"]).selectFields :=
  ⟨by decide, C4_selectFields_contain_id examplePolicyNoId ["public"] (by decide)⟩

/-- C3 counterexample: the registry's `getProjection` does not return a
minimal projection for an unregistered type; it returns `null`. -/
theorem C3_counterexample :
    (getProjection emptyRegistry "User" ["admin"]).fst = none := rfl

/-- C3 amended: for an unregistered type, `getProjection` returns `null`,
while the standalone `calculateAllowedFields` helper returns the minimal
projection containing exactly the identity field with no condition
fields. -/
theorem C3_unregistered_minimal {V : Type} (st : RegistryState V)
    (modelName : String) (roles : List String)
    (hpre : mapGet st.precomputed modelName = none)
    (hpol : mapGet st.policies modelName = none) :
    (getProjection st modelName roles).fst = none ∧
    calculateAllowedFields st.policies modelName roles = ⟨["_id"], []⟩ := by
  constructor
  · unfold getProjection
    rw [hpre]
  · unfold calculateAllowedFields
    rw [hpol]

/-- C3 amended witness: the empty registry at type `User` and role
`admin`. -/
theorem C3_unregistered_minimal_witness :
    mapGet emptyRegistry.precomputed "User" = none ∧
    mapGet emptyRegistry.policies "User" = none ∧
    (getProjection emptyRegistry "User" ["admin"]).fst = none ∧
    calculateAllowedFields emptyRegistry.policies "User" ["admin"] = ⟨["_id"], []⟩ := by
  refine ⟨rfl, rfl, ?_⟩
  have h := C3_unregistered_minimal emptyRegistry "User" ["admin"] rfl rfl
  exact ⟨h.1, h.2⟩

/-- C10: a schema whose parsed policy is empty is skipped (or simply not
registered) without any missing-shield-config error, for every strict
setting and every schema field list; the plugin's strict-validation guard
likewise never fires on an empty policy. -/
theorem C10_strict_skips_unannotated (V : Type) (modelName : String)
    (schemaFields : List String) (strict : Bool) :
    registerModelFromSchema modelName ([] : Policy V) schemaFields strict
      = .ok .skipped
    ∧ pluginRunsStrictValidation strict ([] : Policy V) = false := by
  constructor
  · rfl
  · simp [pluginRunsStrictValidation]

theorem syncProcessField_none_of_no_rule {V : Type} {policy : Policy V}
    {modelName : String} {options : FilterOptions}
    {doc : List (String × V)} {field : String} {value : V}
    (hf : mapGet policy field = none) :
    syncProcessField policy modelName options doc field value = none := by
  unfold syncProcessField
  rw [hf]

/-- C1 counterexample: in the post-fetch filters the rule-less identity
field is excluded, not included: filtering a document holding `_id` under
a policy with no `_id` rule drops `_id` from the output. -/
theorem C1_counterexample :
    mapGet examplePolicyNoId "_id" = none ∧
    "_id" ∉ (filterDocumentSync exampleDocWithId "User" (some examplePolicyNoId)
      (optsWith ["public"])).map Prod.fst := by
  refine ⟨rfl, ?_⟩
  decide

/-- C1 amended: in the post-fetch filters every rule-less field is
excluded from the output, including the identity field: a field with no
policy entry never appears among the sync filter's output keys, and the
async access check reports it inaccessible. -/
theorem C1_ruleless_always_excluded {V : Type} (doc : List (String × V))
    (modelName : String) (policy : Policy V) (options : FilterOptions)
    (f : String) (v : V) (hf : mapGet policy f = none) :
    f ∉ (filterDocumentSync doc modelName (some policy) options).map Prod.fst ∧
    checkFieldAccess f v doc modelName policy options = .ok ⟨false, none⟩ := by
  constructor
  · unfold filterDocumentSync
    suffices h : ∀ (l res : List (String × V)), f ∉ res.map Prod.fst →
        f ∉ (l.foldl
          (fun result fv =>
            match syncProcessField policy modelName options doc fv.1 fv.2 with
            | none => result
            | some v => mapSet result fv.1 v) res).map Prod.fst by
      exact h doc [] (by simp)
    intro l
    induction l with
    | nil =>
      intro res h
      simpa using h
    | cons fv rest ih =>
      intro res hres
      simp only [List.foldl_cons]
      cases hsp : syncProcessField policy modelName options doc fv.1 fv.2 with
      | none =>
        exact ih res hres
      | some w =>
        refine ih _ ?_
        intro hmem
        rcases mem_keys_mapSet hmem with rfl | h2
        · rw [syncProcessField_none_of_no_rule hf] at hsp
          cases hsp
        · exact hres h2
  · unfold checkFieldAccess
    rw [hf]

/-- C1 amended witness: the concrete document and policy of the
counterexample instantiate the amended statement at field `_id`. -/
theorem C1_ruleless_always_excluded_witness :
    mapGet examplePolicyNoId "_id" = none ∧
    ("_id" ∉ (filterDocumentSync exampleDocWithId "User"
        (some examplePolicyNoId) (optsWith ["public"])).map Prod.fst ∧
      checkFieldAccess "_id" (5 : Nat) exampleDocWithId "User"
        examplePolicyNoId (optsWith ["public"]) = .ok ⟨false, none⟩) :=
  ⟨rfl, C1_ruleless_always_excluded exampleDocWithId "User" examplePolicyNoId
    (optsWith ["public"]) "_id" 5 rfl⟩

/-- C2 counterexample: a condition that throws does not have its failure
recovered locally by the async filter: `filterDocument` rejects with the
structured `conditionFailed` error, and no record is returned. -/
theorem C2_counterexample :
    filterDocument [("secret", (3 : Nat))] "User"
      (some examplePolicyThrowingCond) (optsWith ["public"])
      = .error (.conditionFailed "User" "secret") := rfl

/-- C2 amended: when a field's condition throws, the synchronous filter
recovers locally (logs and excludes the field, keeping the record), but
the asynchronous `checkFieldAccess` converts the exception into a
structured `conditionFailed` error that propagates out of
`filterDocument`. -/
theorem C2_condition_throw_behaviour {V : Type} (doc : List (String × V))
    (modelName : String) (policy : Policy V) (options : FilterOptions)
    (field : String) (value : V) (config : ShieldConfig V)
    (cond : ShieldContext V → JsCall Bool)
    (hcfg : mapGet policy field = some config)
    (hrole : checkRoleAccess config.roles options.roles = true)
    (hcond : config.condition = some cond)
    (hthrow : cond ⟨options.roles, options.userId, doc, field, modelName⟩
      = .thrown) :
    checkFieldAccess field value doc modelName policy options
      = .error (.conditionFailed modelName field) ∧
    syncProcessField policy modelName options doc field value = none := by
  constructor
  · unfold checkFieldAccess
    rw [hcfg]
    simp only [hrole, Bool.not_true, Bool.false_eq_true, if_false, hcond,
      hthrow, awaited]
  · unfold syncProcessField
    rw [hcfg, checkRoleAccessSync_eq]
    simp only [hrole, Bool.not_true, Bool.false_eq_true, if_false, hcond,
      hthrow, Bool.not_false, if_true]

/-- C2 amended witness: the throwing-condition policy at field `secret`
with role `public`. -/
theorem C2_condition_throw_behaviour_witness :
    checkFieldAccess "secret" (3 : Nat) [("secret", 3)] "User"
      examplePolicyThrowingCond (optsWith ["public"])
      = .error (.conditionFailed "User" "secret") ∧
    syncProcessField examplePolicyThrowingCond "User" (optsWith ["public"])
      [("secret", 3)] "secret" 3 = none :=
  C2_condition_throw_behaviour [("secret", 3)] "User"
    examplePolicyThrowingCond (optsWith ["public"]) "secret" 3
    { roles := ["public"], condition := some (fun _ => .thrown) }
    (fun _ => .thrown) rfl rfl rfl rfl

/-- C9: when a field passes the role check and its condition (absent, or
returning true), a transform that throws is caught and the field is kept
with its original, untransformed value — in both the async access check
and the synchronous filter. -/
theorem C9_transform_throw_passthrough {V : Type} (doc : List (String × V))
    (modelName : String) (policy : Policy V) (options : FilterOptions)
    (field : String) (value : V) (config : ShieldConfig V)
    (t : V → ShieldContext V → JsCall V)
    (hcfg : mapGet policy field = some config)
    (hrole : checkRoleAccess config.roles options.roles = true)
    (hcond : ∀ c, config.condition = some c →
      c ⟨options.roles, options.userId, doc, field, modelName⟩ = .value true)
    (ht : config.transform = some t)
    (hthrow : t value ⟨options.roles, options.userId, doc, field, modelName⟩
      = .thrown) :
    checkFieldAccess field value doc modelName policy options
      = .ok ⟨true, some value⟩ ∧
    syncProcessField policy modelName options doc field value
      = some value := by
  constructor
  · unfold checkFieldAccess
    rw [hcfg]
    cases hc : config.condition with
    | none =>
      simp only [hrole, Bool.not_true, Bool.false_eq_true, if_false, hc,
        ht, hthrow, awaited, Bool.not_false, if_true]
    | some c =>
      have hcv := hcond c hc
      simp only [hrole, Bool.not_true, Bool.false_eq_true, if_false, hc,
        hcv, awaited, ht, hthrow, Bool.not_false, if_true]
  · unfold syncProcessField
    rw [hcfg, checkRoleAccessSync_eq]
    cases hc : config.condition with
    | none =>
      simp only [hrole, Bool.not_true, Bool.false_eq_true, if_false, hc,
        ht, hthrow, Bool.not_false, if_true]
    | some c =>
      have hcv := hcond c hc
      simp only [hrole, Bool.not_true, Bool.false_eq_true, if_false, hc,
        hcv, ht, hthrow, Bool.not_false, if_true]

/-- C9 witness: the throwing-transform policy at field `phone` keeps the
original value `9`. -/
theorem C9_transform_throw_passthrough_witness :
    checkFieldAccess "phone" (9 : Nat) [("phone", 9)] "User"
      examplePolicyThrowingTransform (optsWith ["public"])
      = .ok ⟨true, some 9⟩ ∧
    syncProcessField examplePolicyThrowingTransform "User"
      (optsWith ["public"]) [("phone", 9)] "phone" 9 = some 9 :=
  C9_transform_throw_passthrough [("phone", 9)] "User"
    examplePolicyThrowingTransform (optsWith ["public"]) "phone" 9
    { roles := ["public"], transform := some (fun _ _ => .thrown) }
    (fun _ _ => .thrown) rfl rfl (fun c hc => by cases hc) rfl rfl

/-- C7: for the policy with exactly the leaves `x.a` (roles `[r1]`) and
`x.b` (roles `[r2]`) and no explicit rule for `x`, synthesis adds a rule
for `x` that is marked synthesized and whose roles are exactly the union
of `r1` and `r2`; when both leaves have empty role lists the synthesized
rule for `x` also has an empty role list. -/
theorem C7_parent_synthesis_union (r1 r2 : String) :
    (∃ c : ShieldConfig Nat,
      mapGet (synthesizeParentPolicies
        [("x.a", { roles := [r1] }), ("x.b", { roles := [r2] })]) "x" = some c
      ∧ c.synthesized = true
      ∧ (∀ r, r ∈ c.roles ↔ (r = r1 ∨ r = r2)))
  ∧ (∃ c : ShieldConfig Nat,
      mapGet (synthesizeParentPolicies
        [("x.a", { roles := [] }), ("x.b", { roles := [] })]) "x" = some c
      ∧ c.synthesized = true ∧ c.roles = []) := by
  constructor
  · refine ⟨{ roles := setAdd [r1] r2, synthesized := true }, rfl, rfl, ?_⟩
    intro r
    rw [mem_setAdd]
    simp only [List.mem_singleton]
    tauto
  · exact ⟨{ roles := [], synthesized := true }, rfl, rfl, rfl⟩

theorem keys_foldl_pred {α β : Type} (P : String → Prop)
    (step : List (String × α) → β → List (String × α)) (l : List β)
    (hstep : ∀ m b, b ∈ l → ∀ k, k ∈ (step m b).map Prod.fst →
      k ∈ m.map Prod.fst ∨ P k) :
    ∀ m, (∀ k ∈ m.map Prod.fst, P k) →
      ∀ k ∈ (l.foldl step m).map Prod.fst, P k := by
  induction l with
  | nil =>
    intro m hm k hk
    exact hm k (by simpa using hk)
  | cons b rest ih =>
    intro m hm k hk
    simp only [List.foldl_cons] at hk
    refine ih (fun m' b' hb' => hstep m' b' (List.mem_cons_of_mem _ hb'))
      (step m b) ?_ k hk
    intro k' hk'
    rcases hstep m b (List.mem_cons_self _ _) k' hk' with h1 | h1
    · exact hm k' h1
    · exact h1

/-- C8: the merged projection stage never grants a field outside the
allowed set: every key of `mergeProjections` other than `_id` is either in
the allowed-field list or was authored by the caller with a computed
expression value. -/
theorem C8_merge_respects_allowed (up : List (String × PVal))
    (allowed : List String) (k : String)
    (hk : k ∈ (mergeProjections up allowed).map Prod.fst)
    (hne : k ≠ "_id") :
    k ∈ allowed ∨ ∃ v, (k, v) ∈ up ∧ isComputedField v = true := by
  have hmain : k = "_id" ∨ k ∈ allowed ∨
      ∃ v, (k, v) ∈ up ∧ isComputedField v = true := by
    unfold mergeProjections at hk
    cases hmode : detectProjectionMode up with
    | exclusion =>
      rw [hmode] at hk
      have hk2 : k ∈ (up.foldl
          (fun m kv =>
            if kv.1 == "_id" && pvalIsZero kv.2 then mapSet m "_id" (PVal.num 0)
            else m)
          (allowed.foldl (fun m f => mapSet m f (PVal.num 1)) [])).map
          Prod.fst := hk
      refine keys_foldl_pred (fun k0 : String => k0 = "_id" ∨ k0 ∈ allowed ∨ ∃ v, (k0, v) ∈ up ∧ isComputedField v = true)
        (fun m kv =>
          if kv.1 == "_id" && pvalIsZero kv.2 then mapSet m "_id" (PVal.num 0)
          else m)
        up ?_ _ ?_ k hk2
      · intro m b _ k' hk'
        beta_reduce at hk'
        split at hk'
        · rcases mem_keys_mapSet hk' with rfl | h2
          · exact Or.inr (Or.inl rfl)
          · exact Or.inl h2
        · exact Or.inl hk'
      · refine keys_foldl_pred (fun k0 : String => k0 = "_id" ∨ k0 ∈ allowed ∨ ∃ v, (k0, v) ∈ up ∧ isComputedField v = true) (fun m f => mapSet m f (PVal.num 1)) allowed
          ?_ [] (by simp)
        intro m b hb k' hk'
        rcases mem_keys_mapSet hk' with rfl | h2
        · exact Or.inr (Or.inr (Or.inl hb))
        · exact Or.inl h2
    | inclusion =>
      rw [hmode] at hk
      have hk2 : k ∈ (allowed.foldl
          (fun m f => if mapHas m f then m else mapSet m f (PVal.num 1))
          (up.foldl
            (fun m kv =>
              if kv.1 == "_id" then mapSet m "_id" kv.2
              else if allowed.contains kv.1 then mapSet m kv.1 kv.2
              else if isComputedField kv.2 then mapSet m kv.1 kv.2
              else m)
            [])).map Prod.fst := hk
      refine keys_foldl_pred (fun k0 : String => k0 = "_id" ∨ k0 ∈ allowed ∨ ∃ v, (k0, v) ∈ up ∧ isComputedField v = true)
        (fun m f => if mapHas m f then m else mapSet m f (PVal.num 1)) allowed
        ?_ _ ?_ k hk2
      · intro m b hb k' hk'
        beta_reduce at hk'
        split at hk'
        · exact Or.inl hk'
        · rcases mem_keys_mapSet hk' with rfl | h2
          · exact Or.inr (Or.inr (Or.inl hb))
          · exact Or.inl h2
      · refine keys_foldl_pred (fun k0 : String => k0 = "_id" ∨ k0 ∈ allowed ∨ ∃ v, (k0, v) ∈ up ∧ isComputedField v = true)
          (fun m kv =>
            if kv.1 == "_id" then mapSet m "_id" kv.2
            else if allowed.contains kv.1 then mapSet m kv.1 kv.2
            else if isComputedField kv.2 then mapSet m kv.1 kv.2
            else m)
          up ?_ [] (by simp)
        intro m b hb k' hk'
        beta_reduce at hk'
        split at hk'
        · rcases mem_keys_mapSet hk' with rfl | h2
          · exact Or.inr (Or.inl rfl)
          · exact Or.inl h2
        · split at hk'
          next hcont =>
            rcases mem_keys_mapSet hk' with rfl | h2
            · exact Or.inr (Or.inr (Or.inl (List.elem_iff.mp hcont)))
            · exact Or.inl h2
          next =>
            split at hk'
            next hcomp =>
              rcases mem_keys_mapSet hk' with rfl | h2
              · exact Or.inr (Or.inr (Or.inr ⟨b.2, by simpa using hb, hcomp⟩))
              · exact Or.inl h2
            next => exact Or.inl hk'
  rcases hmain with h | h
  · exact absurd h hne
  · exact h

/-- C8 witness: merging the caller stage projecting `name` with the
allowed fields `name` and `email` yields a stage whose key `email` is in
the allowed set. -/
theorem C8_merge_respects_allowed_witness :
    "email" ∈ (mergeProjections [("name", PVal.num 1)]
      ["name", "email"]).map Prod.fst ∧
    ("email" ∈ ["name", "email"] ∨
      ∃ v, ("email", v) ∈ [("name", PVal.num 1)] ∧ isComputedField v = true) :=
  ⟨by decide,
   C8_merge_respects_allowed [("name", PVal.num 1)] ["name", "email"]
     "email" (by decide) (by decide)⟩

end FieldShield
